import Mathlib

/-!
Verification of the `expotools` publish-packages pipeline (task-graph
execution and checkpointing engine, plus the individual publish tasks).

Sources embedded here:
- `tools/expotools/src/publish-packages/constants.ts`
- `tools/expotools/src/publish-packages/helpers.ts`
- `tools/expotools/src/publish-packages/tasks.ts`
- the `types.ts` module declaring `CommandOptions`, `BackupableOptions`,
  `PublishBackupData`, `PackageState` and `PackageFabric`.

The `TasksRunner` module itself (the `Task` class, dependency resolution,
the execution scheduler and the checkpoint store) is not part of the
available sources; those components are modelled from the specification
(each such definition carries a doc comment starting with
`Modelled from the spec:`).
-/

namespace Expotools

/-- A task-action result: either normal completion or the distinguished
stop marker (`Task.STOP` in the source), which halts the pipeline without
signalling failure. -/
inductive TaskResult where
  | cont
  | stop
deriving Repr, DecidableEq

/-- Task descriptor: name, dependency list (by task name) and the two
lifecycle flags `required` and `backupable`.  Mirrors the descriptor the
`Task` constructor receives in `tasks.ts`
(e.g. `{ name: 'checkRepositoryStatus', required: true, backupable: false }`). -/
structure Task where
  name : String
  dependsOn : List String := []
  required : Bool := false
  backupable : Bool := true
deriving Repr, DecidableEq

/-- Modelled from the spec: tasks are looked up by unique name within the
pipeline graph. -/
def findTask (graph : List Task) (name : String) : Option Task :=
  graph.find? (fun t => t.name == name)

/-- Modelled from the spec: dependency resolution fails either on a name
that resolves to no task in the graph, on a dependency cycle (detected via
the visitation-in-progress marker, naming a task on the cycle), or - in
this fuel-bounded rendering of the recursion - on fuel exhaustion, which
the theorems below show never happens for the fuel `resolveTasks` supplies. -/
inductive ResolveError where
  | unknownTask (name : String)
  | cycleDetected (name : String)
  | outOfFuel
deriving Repr, DecidableEq

/-- Modelled from the spec: visit a list of task names in order with the
given single-name visitation function, threading the accumulated output
through and propagating the first error. -/
def visitMany
    (visitOne : String → List String → List String → Except ResolveError (List String)) :
    List String → List String → List String → Except ResolveError (List String)
  | [], _, output => .ok output
  | n :: ns, inProgress, output =>
    match visitOne n inProgress output with
    | .error e => .error e
    | .ok out => visitMany visitOne ns inProgress out

/-- Modelled from the spec: standard depth-first traversal from a requested
task, recursing into `dependsOn`, appending a task to the output only after
all its dependencies have been appended, skipping a task already present in
the output (memoized visitation), and failing fast on a task already marked
visitation-in-progress (a dependency cycle).  The recursion is bounded by
explicit fuel; `resolveTasks` supplies enough fuel that exhaustion never
occurs. -/
def visit (graph : List Task) :
    Nat → String → List String → List String → Except ResolveError (List String)
  | 0, _, _, _ => .error .outOfFuel
  | fuel' + 1, name, inProgress, output =>
    if name ∈ output then .ok output
    else if name ∈ inProgress then .error (.cycleDetected name)
    else
      match findTask graph name with
      | none => .error (.unknownTask name)
      | some task =>
        match visitMany (visit graph fuel') task.dependsOn (name :: inProgress) output with
        | .error e => .error e
        | .ok out => .ok (out ++ [name])

/-- Modelled from the spec: resolve a requested list of task names plus
their transitive dependencies into a linear, dependency-respecting
execution order.  The fuel `graph.length + 1` bounds the depth of the
visitation-in-progress chain, which can never exceed the number of tasks. -/
def resolveTasks (graph : List Task) (targets : List String) :
    Except ResolveError (List String) :=
  visitMany (visit graph (graph.length + 1)) targets [] []

theorem visitMany_nil (visitOne) (inP output : List String) :
    visitMany visitOne [] inP output = .ok output := rfl

theorem visitMany_cons (visitOne) (n : String) (ns inP output : List String) :
    visitMany visitOne (n :: ns) inP output =
      match visitOne n inP output with
      | .error e => .error e
      | .ok out => visitMany visitOne ns inP out := rfl

theorem visit_zero (graph : List Task) (name : String) (inP output : List String) :
    visit graph 0 name inP output = .error .outOfFuel := rfl

theorem visit_succ (graph : List Task) (f : Nat) (name : String) (inP output : List String) :
    visit graph (f + 1) name inP output =
      (if name ∈ output then .ok output
      else if name ∈ inP then .error (.cycleDetected name)
      else
        match findTask graph name with
        | none => .error (.unknownTask name)
        | some task =>
          match visitMany (visit graph f) task.dependsOn (name :: inP) output with
          | .error e => .error e
          | .ok out => .ok (out ++ [name])) := rfl

/-- The direct dependency list of a task name (empty for unknown names). -/
def taskDeps (graph : List Task) (name : String) : List String :=
  match findTask graph name with
  | some t => t.dependsOn
  | none => []

/-- One-step dependency relation between task names: `depends1 graph a b`
holds when the task named `a` lists `b` in its `dependsOn`. -/
def depends1 (graph : List Task) (a b : String) : Prop :=
  b ∈ taskDeps graph a

/-- A task-name sequence is dependency-respecting when every element's
direct dependencies occur strictly before it. -/
def TopoSorted (graph : List Task) (l : List String) : Prop :=
  ∀ pre x post, l = pre ++ x :: post → ∀ d, depends1 graph x d → d ∈ pre

/-- The task graph has no dependency cycle. -/
def Acyclic (graph : List Task) : Prop :=
  ∀ n, ¬ Relation.TransGen (depends1 graph) n n

/-- The list of task names of a graph. -/
def taskNames (graph : List Task) : List String := graph.map Task.name

/-! ### General list helpers for the resolver proofs -/

theorem exists_first_occurrence {α : Type} {a : α} {l : List α} (h : a ∈ l) :
    ∃ s t, l = s ++ a :: t ∧ a ∉ s := by
  induction l with
  | nil => cases h
  | cons b bs ih =>
    by_cases hb : a = b
    · exact ⟨[], bs, by simp [hb], by simp⟩
    · have hm : a ∈ bs := by
        cases h with
        | head => exact absurd rfl hb
        | tail _ h => exact h
      obtain ⟨s, t, hst, hns⟩ := ih hm
      exact ⟨b :: s, t, by simp [hst], by simp [hns, hb]⟩

theorem append_single_decomp {α : Type} {l : List α} {x : α} {pre : List α} {y : α}
    {post : List α} (h : l ++ [x] = pre ++ y :: post) :
    (pre = l ∧ y = x ∧ post = []) ∨ ∃ post', l = pre ++ y :: post' ∧ post = post' ++ [x] := by
  induction pre generalizing l with
  | nil =>
    cases l with
    | nil =>
      simp at h
      obtain ⟨h1, h2⟩ := h
      subst h1
      exact Or.inl ⟨rfl, rfl, h2⟩
    | cons a l' =>
      simp at h
      obtain ⟨h1, h2⟩ := h
      subst h1
      exact Or.inr ⟨l', rfl, h2.symm⟩
  | cons p pre' ih =>
    cases l with
    | nil =>
      simp at h
    | cons a l' =>
      simp at h
      obtain ⟨rfl, h2⟩ := h
      rcases ih h2 with ⟨rfl, rfl, rfl⟩ | ⟨post', hl, hp⟩
      · exact Or.inl ⟨rfl, rfl, rfl⟩
      · exact Or.inr ⟨post', by simp [hl], hp⟩

/-! ### Properties of `TopoSorted` -/

theorem toposorted_nil (graph : List Task) : TopoSorted graph [] := by
  intro pre x post h
  exact absurd h (by simp)

theorem toposorted_append_single {graph : List Task} {l : List String} {x : String}
    (hl : TopoSorted graph l) (hx : ∀ d, depends1 graph x d → d ∈ l) :
    TopoSorted graph (l ++ [x]) := by
  intro pre y post h d hd
  rcases append_single_decomp h with ⟨rfl, rfl, rfl⟩ | ⟨post', hdec, _⟩
  · exact hx d hd
  · exact hl pre y post' hdec d hd

theorem toposorted_mem_closed {graph : List Task} {l : List String} {x d : String}
    (hl : TopoSorted graph l) (hx : x ∈ l) (hd : depends1 graph x d) : d ∈ l := by
  obtain ⟨s, t, rfl⟩ := List.append_of_mem hx
  exact List.mem_append_left _ (hl s x t rfl d hd)

theorem topo_trans_mem {graph : List Task} {l : List String} {x d : String}
    (hl : TopoSorted graph l) (hx : x ∈ l)
    (h : Relation.TransGen (depends1 graph) x d) : d ∈ l := by
  induction h using Relation.TransGen.head_induction_on with
  | base hr => exact toposorted_mem_closed hl hx hr
  | ih hr _ ih => exact ih (toposorted_mem_closed hl hx hr)

theorem topo_trans_pre {graph : List Task} {l : List String} {x d : String}
    (hl : TopoSorted graph l) (h : Relation.TransGen (depends1 graph) x d) :
    ∀ pre post, l = pre ++ x :: post → d ∈ pre := by
  induction h using Relation.TransGen.head_induction_on with
  | @base a hr =>
    intro pre post hdec
    exact hl pre a post hdec d hr
  | @ih a c hr htg ih =>
    intro pre post hdec
    have hy : c ∈ pre := hl pre a post hdec c hr
    obtain ⟨p1, p2, rfl⟩ := List.append_of_mem hy
    have hd1 : l = p1 ++ c :: (p2 ++ a :: post) := by simp [hdec]
    exact List.mem_append_left _ (ih p1 (p2 ++ a :: post) hd1)

/-! ### The invariant carried by a successful visitation -/

/-- What one successful `visit` call guarantees: the prior output is a
prefix of the result, everything newly appended is reachable from the
visited task along dependency edges, the visited task is in the result,
dependency-respecting order is preserved, and (in an acyclic graph)
freedom from duplicates is preserved. -/
def VisitInv (graph : List Task) (name : String) (output out : List String) : Prop :=
  (∃ added, out = output ++ added ∧
    ∀ x ∈ added, Relation.ReflTransGen (depends1 graph) name x) ∧
  name ∈ out ∧
  (TopoSorted graph output → TopoSorted graph out) ∧
  (Acyclic graph → output.Nodup → out.Nodup)

/-- What one successful `visitList` call guarantees. -/
def VisitListInv (graph : List Task) (names : List String) (output out : List String) : Prop :=
  (∃ added, out = output ++ added ∧
    ∀ x ∈ added, ∃ n ∈ names, Relation.ReflTransGen (depends1 graph) n x) ∧
  (∀ n ∈ names, n ∈ out) ∧
  (TopoSorted graph output → TopoSorted graph out) ∧
  (Acyclic graph → output.Nodup → out.Nodup)

theorem visitList_inv_of_visit {graph : List Task} {fuel : Nat}
    (hv : ∀ name inP output out, visit graph fuel name inP output = .ok out →
      VisitInv graph name output out) :
    ∀ names inP output out, visitMany (visit graph fuel) names inP output = .ok out →
      VisitListInv graph names output out := by
  intro names
  induction names with
  | nil =>
    intro inP output out h
    rw [visitMany_nil] at h
    obtain rfl : output = out := by simpa using h
    exact ⟨⟨[], by simp⟩, by simp, fun h => h, fun _ h => h⟩
  | cons n ns ih =>
    intro inP output out h
    rw [visitMany_cons] at h
    cases h1 : visit graph fuel n inP output with
    | error e => rw [h1] at h; cases h
    | ok mid =>
      rw [h1] at h
      obtain ⟨⟨a1, rfl, hr1⟩, hm1, ht1, hn1⟩ := hv n inP output mid h1
      obtain ⟨⟨a2, rfl, hr2⟩, hm2, ht2, hn2⟩ := ih inP _ out h
      refine ⟨⟨a1 ++ a2, by simp, ?_⟩, ?_, fun h => ht2 (ht1 h), fun ha h => hn2 ha (hn1 ha h)⟩
      · intro x hx
        rcases List.mem_append.mp hx with hx | hx
        · exact ⟨n, by simp, hr1 x hx⟩
        · obtain ⟨n', hn', hrn⟩ := hr2 x hx
          exact ⟨n', by simp [hn'], hrn⟩
      · intro m hm
        rcases List.mem_cons.mp hm with rfl | hm
        · exact List.mem_append_left a2 hm1
        · exact hm2 _ hm

theorem nodup_subset_length_le {l l' : List String} (h : l.Nodup) (hs : l ⊆ l') :
    l.length ≤ l'.length := by
  have h1 : l.length = l.toFinset.card := (List.toFinset_card_of_nodup h).symm
  have h2 : l.toFinset ⊆ l'.toFinset := by
    intro a ha
    simp only [List.mem_toFinset] at ha ⊢
    exact hs ha
  calc l.length = l.toFinset.card := h1
    _ ≤ l'.toFinset.card := Finset.card_le_card h2
    _ ≤ l'.length := l'.toFinset_card_le

theorem findTask_of_mem_names {graph : List Task} {name : String}
    (h : name ∈ taskNames graph) :
    ∃ t, findTask graph name = some t ∧ t.name = name ∧ t ∈ graph := by
  obtain ⟨t, ht, rfl⟩ := List.mem_map.mp h
  have hsome : (graph.find? (fun u => u.name == t.name)).isSome := by
    rw [List.find?_isSome]
    exact ⟨t, ht, by simp⟩
  obtain ⟨u, hu⟩ := Option.isSome_iff_exists.mp hsome
  refine ⟨u, hu, ?_, List.mem_of_find?_eq_some hu⟩
  simpa using List.find?_some hu

theorem visit_inv {graph : List Task} :
    ∀ fuel name inP output out, visit graph fuel name inP output = .ok out →
      VisitInv graph name output out := by
  intro fuel
  induction fuel with
  | zero =>
    intro name inP output out h
    rw [visit_zero] at h
    cases h
  | succ f ih =>
    have ihL := visitList_inv_of_visit ih
    intro name inP output out h
    rw [visit_succ] at h
    by_cases h1 : name ∈ output
    · simp only [if_pos h1] at h
      obtain rfl : output = out := by simpa using h
      exact ⟨⟨[], by simp⟩, h1, fun h => h, fun _ h => h⟩
    · simp only [if_neg h1] at h
      by_cases h2 : name ∈ inP
      · simp only [if_pos h2] at h; cases h
      · simp only [if_neg h2] at h
        split at h
        · cases h
        next task hf =>
          split at h
          · cases h
          next mid hvl =>
            obtain rfl : mid ++ [name] = out := by simpa using h
            obtain ⟨⟨added, rfl, hradd⟩, hmem, htopo, hnd⟩ :=
              ihL task.dependsOn (name :: inP) output mid hvl
            have hdep1 : ∀ d, depends1 graph name d → d ∈ task.dependsOn := by
              intro d hd
              simpa [depends1, taskDeps, hf] using hd
            refine ⟨⟨added ++ [name], by simp, ?_⟩, by simp, ?_, ?_⟩
            · intro x hx
              rcases List.mem_append.mp hx with hx | hx
              · obtain ⟨d, hdmem, hdr⟩ := hradd x hx
                have : depends1 graph name d := by
                  simp [depends1, taskDeps, hf, hdmem]
                exact Relation.ReflTransGen.head this hdr
              · obtain rfl : x = name := by simpa using hx
                exact Relation.ReflTransGen.refl
            · intro hsorted
              refine toposorted_append_single (htopo hsorted) ?_
              intro d hd
              exact hmem d (hdep1 d hd)
            · intro hacyc hout
              have hmidnd := hnd hacyc hout
              have hnotmem : name ∉ output ++ added := by
                intro hc
                rcases List.mem_append.mp hc with hc | hc
                · exact h1 hc
                · obtain ⟨d, hdmem, hdr⟩ := hradd name hc
                  have hd1 : depends1 graph name d := by
                    simp [depends1, taskDeps, hf, hdmem]
                  exact hacyc name (Relation.TransGen.head' hd1 hdr)
              refine List.Nodup.append hmidnd (List.nodup_singleton name) ?_
              intro a ha hb
              obtain rfl : a = name := by simpa using hb
              exact hnotmem ha

/-! ### Totality: on a well-formed graph the resolver either succeeds or
reports a genuine dependency cycle (it never runs out of fuel and never
reports an unknown task). -/

theorem visitList_total_of_visit {graph : List Task} {fuel : Nat}
    (hv : ∀ name inP output, name ∈ taskNames graph →
      (∀ x ∈ inP, Relation.TransGen (depends1 graph) x name) →
      inP.Nodup → inP ⊆ taskNames graph →
      (taskNames graph).length + 1 ≤ fuel + inP.length →
      (∃ out, visit graph fuel name inP output = .ok out) ∨
      (∃ c, visit graph fuel name inP output = .error (.cycleDetected c) ∧
        Relation.TransGen (depends1 graph) c c)) :
    ∀ names inP output, (∀ n ∈ names, n ∈ taskNames graph) →
      (∀ n ∈ names, ∀ x ∈ inP, Relation.TransGen (depends1 graph) x n) →
      inP.Nodup → inP ⊆ taskNames graph →
      (taskNames graph).length + 1 ≤ fuel + inP.length →
      (∃ out, visitMany (visit graph fuel) names inP output = .ok out) ∨
      (∃ c, visitMany (visit graph fuel) names inP output = .error (.cycleDetected c) ∧
        Relation.TransGen (depends1 graph) c c) := by
  intro names
  induction names with
  | nil =>
    intro inP output _ _ _ _ _
    exact Or.inl ⟨output, by rw [visitMany_nil]⟩
  | cons n ns ih =>
    intro inP output hmem hchain hinnd hinsub hfuel
    rcases hv n inP output (hmem n (by simp)) (hchain n (by simp)) hinnd hinsub hfuel with
      ⟨mid, hmid⟩ | ⟨c, hc, hcc⟩
    · rcases ih inP mid (fun m hm => hmem m (by simp [hm]))
        (fun m hm x hx => hchain m (by simp [hm]) x hx) hinnd hinsub hfuel with
        ⟨out, hout⟩ | ⟨c, hc, hcc⟩
      · exact Or.inl ⟨out, by rw [visitMany_cons, hmid]; exact hout⟩
      · exact Or.inr ⟨c, by rw [visitMany_cons, hmid]; exact hc, hcc⟩
    · exact Or.inr ⟨c, by rw [visitMany_cons, hc], hcc⟩

theorem visit_total {graph : List Task}
    (hdeps : ∀ t ∈ graph, ∀ d ∈ t.dependsOn, d ∈ taskNames graph) :
    ∀ fuel name inP output, name ∈ taskNames graph →
      (∀ x ∈ inP, Relation.TransGen (depends1 graph) x name) →
      inP.Nodup → inP ⊆ taskNames graph →
      (taskNames graph).length + 1 ≤ fuel + inP.length →
      (∃ out, visit graph fuel name inP output = .ok out) ∨
      (∃ c, visit graph fuel name inP output = .error (.cycleDetected c) ∧
        Relation.TransGen (depends1 graph) c c) := by
  intro fuel
  induction fuel with
  | zero =>
    intro name inP output _ _ hinnd hinsub hfuel
    exfalso
    have := nodup_subset_length_le hinnd hinsub
    omega
  | succ f ih =>
    intro name inP output hmem hchain hinnd hinsub hfuel
    by_cases h1 : name ∈ output
    · exact Or.inl ⟨output, by rw [visit_succ, if_pos h1]⟩
    · by_cases h2 : name ∈ inP
      · exact Or.inr ⟨name, by rw [visit_succ, if_neg h1, if_pos h2], hchain name h2⟩
      · obtain ⟨task, hf, htn, htg⟩ := findTask_of_mem_names hmem
        have hstep : visit graph (f + 1) name inP output =
            match visitMany (visit graph f) task.dependsOn (name :: inP) output with
            | .error e => .error e
            | .ok out => .ok (out ++ [name]) := by
          rw [visit_succ, if_neg h1, if_neg h2, hf]
        have hdepname : ∀ d ∈ task.dependsOn, depends1 graph name d := by
          intro d hd
          simp [depends1, taskDeps, hf, hd]
        rcases visitList_total_of_visit ih task.dependsOn (name :: inP) output
          (fun d hd => by
            have := hdeps task htg d hd
            exact this)
          (fun d hd x hx => by
            rcases List.mem_cons.mp hx with rfl | hx
            · exact Relation.TransGen.single (hdepname d hd)
            · exact Relation.TransGen.tail (hchain x hx) (hdepname d hd))
          (List.nodup_cons.mpr ⟨h2, hinnd⟩)
          (List.cons_subset.mpr ⟨hmem, hinsub⟩)
          (by simp only [List.length_cons]; omega) with
          ⟨mid, hmid⟩ | ⟨c, hc, hcc⟩
        · exact Or.inl ⟨mid ++ [name], by rw [hstep, hmid]⟩
        · exact Or.inr ⟨c, by rw [hstep, hc], hcc⟩

/-! ### Claim C1: dependency resolution on acyclic graphs -/

/-- C1: For every acyclic task graph (whose dependency references all
resolve and whose requested names all exist in the graph) and every
requested list of task names, dependency resolution produces a single
sequence in which each requested task and each of its transitive
dependencies appears exactly once and every task appears after all tasks
it (transitively) depends on. -/
theorem resolveTasks_topological_order (graph : List Task) (targets : List String)
    (hdeps : ∀ t ∈ graph, ∀ d ∈ t.dependsOn, d ∈ taskNames graph)
    (htargets : ∀ n ∈ targets, n ∈ taskNames graph)
    (hacyc : Acyclic graph) :
    ∃ out, resolveTasks graph targets = .ok out ∧
      (∀ n ∈ targets, out.count n = 1) ∧
      (∀ n ∈ targets, ∀ d, Relation.TransGen (depends1 graph) n d → out.count d = 1) ∧
      (∀ pre x post, out = pre ++ x :: post →
        ∀ d, Relation.TransGen (depends1 graph) x d → d ∈ pre) := by
  rcases visitList_total_of_visit (visit_total hdeps (graph.length + 1)) targets [] []
      htargets (by simp) (by simp) (by simp) (by simp [taskNames]) with
    ⟨out, hout⟩ | ⟨c, _, hcc⟩
  · obtain ⟨⟨added, _, _⟩, hmem, htopo, hnodup⟩ :=
      visitList_inv_of_visit (visit_inv (graph.length + 1)) targets [] [] out hout
    have hts : TopoSorted graph out := htopo (toposorted_nil graph)
    have hnd : out.Nodup := hnodup hacyc List.nodup_nil
    refine ⟨out, hout, ?_, ?_, ?_⟩
    · intro n hn
      exact List.count_eq_one_of_mem hnd (hmem n hn)
    · intro n hn d htr
      exact List.count_eq_one_of_mem hnd (topo_trans_mem hts (hmem n hn) htr)
    · intro pre x post hdec d htr
      exact topo_trans_pre hts htr pre post hdec
  · exact absurd hcc (hacyc c)

/-- The three-task pipeline of the C1 scenario: `A` required with no
dependencies, `B` and `C` each depending on `A`. -/
def pipelineGraphABC : List Task :=
  [{ name := "A", required := true },
   { name := "B", dependsOn := ["A"] },
   { name := "C", dependsOn := ["A"] }]

theorem pipelineGraphABC_dep {a b : String}
    (h : depends1 pipelineGraphABC a b) : b = "A" := by
  simp only [depends1, taskDeps] at h
  cases hf : findTask pipelineGraphABC a with
  | none => simp [hf] at h
  | some t =>
    simp only [hf] at h
    have ht := List.mem_of_find?_eq_some hf
    fin_cases ht <;> simp_all [pipelineGraphABC]

theorem pipelineGraphABC_acyclic : Acyclic pipelineGraphABC := by
  intro n h
  have hA : ∀ a b, Relation.TransGen (depends1 pipelineGraphABC) a b → b = "A" := by
    intro a b hab
    induction hab with
    | single h1 => exact pipelineGraphABC_dep h1
    | tail _ h1 _ => exact pipelineGraphABC_dep h1
  obtain rfl : n = "A" := hA n n h
  have hdepsA : taskDeps pipelineGraphABC "A" = [] := by decide
  obtain ⟨b, h1, _⟩ := Relation.TransGen.head'_iff.mp h
  simp only [depends1, hdepsA] at h1
  exact absurd h1 (by simp)

/-- C1 witness: resolving `[B, C]` on the scenario pipeline yields the
order `[A, B, C]`, in which `A` appears exactly once and precedes both
`B` and `C`. -/
theorem resolveTasks_topological_order_witness :
    (∃ out, resolveTasks pipelineGraphABC ["B", "C"] = .ok out ∧
      (∀ n ∈ ["B", "C"], out.count n = 1) ∧
      (∀ n ∈ ["B", "C"], ∀ d,
        Relation.TransGen (depends1 pipelineGraphABC) n d → out.count d = 1) ∧
      (∀ pre x post, out = pre ++ x :: post →
        ∀ d, Relation.TransGen (depends1 pipelineGraphABC) x d → d ∈ pre)) ∧
    resolveTasks pipelineGraphABC ["B", "C"] = .ok ["A", "B", "C"] :=
  ⟨resolveTasks_topological_order pipelineGraphABC ["B", "C"]
      (by decide) (by decide) pipelineGraphABC_acyclic,
    rfl⟩

/-! ### Claim C7: graphs containing a dependency cycle -/

/-- A graph with a dependency cycle between `B` and `C`, while `A` is
independent of the cycle. -/
def cyclicGraph : List Task :=
  [{ name := "A" },
   { name := "B", dependsOn := ["C"] },
   { name := "C", dependsOn := ["B"] }]

theorem cyclicGraph_cycle_BB :
    Relation.TransGen (depends1 cyclicGraph) "B" "B" := by
  have h1 : depends1 cyclicGraph "B" "C" := by
    show "C" ∈ taskDeps cyclicGraph "B"
    decide
  have h2 : depends1 cyclicGraph "C" "B" := by
    show "B" ∈ taskDeps cyclicGraph "C"
    decide
  exact Relation.TransGen.tail (Relation.TransGen.single h1) h2

/-- C7 counterexample: `cyclicGraph` contains a dependency cycle
(`B ↔ C`), yet resolving the request `["A"]` succeeds, because the
depth-first traversal only visits requested tasks and their transitive
dependencies: a cycle not reachable from any requested task goes
undetected.  So "for every task graph containing a dependency cycle,
resolution fails" is false as stated. -/
theorem resolveTasks_cycle_counterexample :
    Relation.TransGen (depends1 cyclicGraph) "B" "B" ∧
    resolveTasks cyclicGraph ["A"] = .ok ["A"] :=
  ⟨cyclicGraph_cycle_BB, rfl⟩

/-- C7 (amended): for every task graph whose dependency references all
resolve and whose requested names all exist, if some requested task
transitively reaches a task lying on a dependency cycle, then resolution
fails with an error identifying a task on a cycle.  Resolution is a pure
function running before the scheduler, so no task action runs. -/
theorem resolveTasks_cycle_error (graph : List Task) (targets : List String)
    (hdeps : ∀ t ∈ graph, ∀ d ∈ t.dependsOn, d ∈ taskNames graph)
    (htargets : ∀ n ∈ targets, n ∈ taskNames graph)
    (hcyc : ∃ n ∈ targets, ∃ c, Relation.ReflTransGen (depends1 graph) n c ∧
      Relation.TransGen (depends1 graph) c c) :
    ∃ x, resolveTasks graph targets = .error (.cycleDetected x) ∧
      Relation.TransGen (depends1 graph) x x := by
  obtain ⟨n, hn, c, hreach, hcc⟩ := hcyc
  rcases visitList_total_of_visit (visit_total hdeps (graph.length + 1)) targets [] []
      htargets (by simp) (by simp) (by simp) (by simp [taskNames]) with
    ⟨out, hout⟩ | ⟨x, hx, hxx⟩
  · exfalso
    obtain ⟨⟨added, _, _⟩, hmem, htopo, _⟩ :=
      visitList_inv_of_visit (visit_inv (graph.length + 1)) targets [] [] out hout
    have hts : TopoSorted graph out := htopo (toposorted_nil graph)
    have hcmem : c ∈ out := by
      rcases Relation.reflTransGen_iff_eq_or_transGen.mp hreach with heq | htg
      · rw [heq]; exact hmem n hn
      · exact topo_trans_mem hts (hmem n hn) htg
    obtain ⟨s, t, hst, hns⟩ := exists_first_occurrence hcmem
    exact hns (topo_trans_pre hts hcc s t hst)
  · exact ⟨x, hx, hxx⟩

/-- C7 witness for the amended claim: requesting `["B"]` on `cyclicGraph`
reaches the `B ↔ C` cycle, and resolution reports a cycle error naming a
task on a cycle. -/
theorem resolveTasks_cycle_error_witness :
    ∃ x, resolveTasks cyclicGraph ["B"] = .error (.cycleDetected x) ∧
      Relation.TransGen (depends1 cyclicGraph) x x :=
  resolveTasks_cycle_error cyclicGraph ["B"] (by decide) (by decide)
    ⟨"B", by decide, "B", Relation.ReflTransGen.refl, cyclicGraph_cycle_BB⟩

/-! ### The execution scheduler (claims C2 and C6) -/

/-- Modelled from the spec: a task as the scheduler sees it - its
`backupable` flag and its bound action over the shared state `σ`.  The
action may transform the state and may return the stop marker. -/
structure STask (σ : Type) where
  backupable : Bool
  action : σ → σ × TaskResult

/-- Modelled from the spec: the observable outcome of one scheduler run -
how many tasks of the resolved order executed (the run always executes a
strict initial segment of the order, in order), the final shared state,
the checkpoint on durable storage, and whether the run was halted by the
stop marker. -/
structure RunResult (σ : Type) where
  executed : Nat
  shared : σ
  checkpoint : Option σ
  stopped : Bool

/-- Modelled from the spec: the execution scheduler walks the resolved
order once, synchronously.  Each task's action runs on the current shared
state; if it returns the stop marker the scheduler halts immediately and
the checkpoint on disk is left exactly as it was before that task ran;
otherwise, after a `backupable` task completes, the checkpoint is
overwritten with a snapshot of the new shared state, while a
non-backupable task never triggers a save. -/
def run {σ : Type} : List (STask σ) → σ → Option σ → RunResult σ
  | [], s, cp => ⟨0, s, cp, false⟩
  | t :: ts, s, cp =>
    match t.action s with
    | (s', .stop) => ⟨1, s', cp, true⟩
    | (s', .cont) =>
      let cp' := if t.backupable then some s' else cp
      let r := run ts s' cp'
      ⟨r.executed + 1, r.shared, r.checkpoint, r.stopped⟩

theorem run_nil {σ : Type} (s : σ) (cp : Option σ) :
    run [] s cp = ⟨0, s, cp, false⟩ := rfl

theorem run_cons {σ : Type} (t : STask σ) (ts : List (STask σ)) (s : σ) (cp : Option σ) :
    run (t :: ts) s cp =
      match t.action s with
      | (s', .stop) => ⟨1, s', cp, true⟩
      | (s', .cont) =>
        let cp' := if t.backupable then some s' else cp
        let r := run ts s' cp'
        ⟨r.executed + 1, r.shared, r.checkpoint, r.stopped⟩ := rfl

/-- Running a prefix to normal completion composes with running the rest
from the resulting state and checkpoint. -/
theorem run_append_of_completed {σ : Type} {pre : List (STask σ)} {s s1 : σ}
    {cp cp1 : Option σ} (rest : List (STask σ))
    (h : run pre s cp = ⟨pre.length, s1, cp1, false⟩) :
    run (pre ++ rest) s cp =
      ⟨pre.length + (run rest s1 cp1).executed, (run rest s1 cp1).shared,
        (run rest s1 cp1).checkpoint, (run rest s1 cp1).stopped⟩ := by
  induction pre generalizing s cp with
  | nil =>
    rw [run_nil] at h
    simp only [List.length_nil, RunResult.mk.injEq, true_and, and_true] at h
    obtain ⟨rfl, rfl⟩ := h
    simp
  | cons t pre' ih =>
    rw [run_cons] at h
    rw [show (t :: pre') ++ rest = t :: (pre' ++ rest) from rfl, run_cons]
    rcases hact : t.action s with ⟨s', res⟩
    rw [hact] at h
    cases res with
    | stop => simp at h
    | cont =>
      simp only [] at h ⊢
      rcases hr : run pre' s' (if t.backupable then some s' else cp) with ⟨n, sh, cpp, st⟩
      rw [hr] at h
      simp only [List.length_cons, RunResult.mk.injEq] at h
      obtain ⟨hn, rfl, rfl, rfl⟩ := h
      have hn' : n = pre'.length := by omega
      subst hn'
      rw [ih hr]
      simp only [RunResult.mk.injEq, List.length_cons, and_true, true_and]
      omega

/-- C2: if every task before position `i` of the resolved order completes
normally (producing shared state `s1` and on-disk checkpoint `cp1`) and
the task at position `i` returns the stop marker, then exactly the tasks
up to and including position `i` execute - nothing after position `i`
runs - and the checkpoint on disk afterwards is exactly `cp1`, the
checkpoint that was on disk before the stopping task ran: it is neither
rolled back nor overwritten. -/
theorem run_stop {σ : Type} (pre : List (STask σ)) (t : STask σ) (post : List (STask σ))
    (s s1 s2 : σ) (cp cp1 : Option σ)
    (hpre : run pre s cp = ⟨pre.length, s1, cp1, false⟩)
    (hstop : t.action s1 = (s2, .stop)) :
    run (pre ++ t :: post) s cp = ⟨pre.length + 1, s2, cp1, true⟩ := by
  rw [run_append_of_completed (t :: post) hpre, run_cons, hstop]

/-- C2 witness: a three-task order over `σ = Nat` where the first task
increments and checkpoints, the second stops, and the third would add 100:
the run executes exactly two tasks, the third never runs, and the final
checkpoint is `some 1` - the checkpoint written by the first task, exactly
what was on disk before the stopping task ran. -/
theorem run_stop_witness :
    run ([(⟨true, fun n => (n + 1, TaskResult.cont)⟩ : STask Nat)] ++
        (⟨true, fun n => (n * 10, TaskResult.stop)⟩ : STask Nat) ::
        [(⟨true, fun n => (n + 100, TaskResult.cont)⟩ : STask Nat)]) 0 none =
      ⟨2, 10, some 1, true⟩ :=
  run_stop [⟨true, fun n => (n + 1, TaskResult.cont)⟩]
    ⟨true, fun n => (n * 10, TaskResult.stop)⟩
    [⟨true, fun n => (n + 100, TaskResult.cont)⟩]
    0 1 10 none (some 1) rfl rfl

/-! ### Claim C6: the `checkRepositoryStatus` task -/

/-- The `checkRepositoryStatus` task descriptor, from `tasks.ts`:
`new Task({ name: 'checkRepositoryStatus', required: true, backupable: false }, ...)`. -/
def checkRepositoryStatus : Task :=
  { name := "checkRepositoryStatus", required := true, backupable := false }

/-- The action of `checkRepositoryStatus`, from `tasks.ts`: it returns the
stop marker when the branch-name check is not confirmed
(`checkBranchNameAsync`, an interactive/git collaborator modelled by the
boolean oracle `branchNameConfirmed`), then returns the stop marker when
the repository has unstaged changes (`Git.hasUnstagedChangesAsync`,
modelled by the boolean oracle `hasUnstagedChanges`), and otherwise
returns normally. -/
def checkRepositoryStatusAction (branchNameConfirmed hasUnstagedChanges : Bool) : TaskResult :=
  if !branchNameConfirmed then .stop
  else if hasUnstagedChanges then .stop
  else .cont

/-- C6: `checkRepositoryStatus` is declared with `required = true` and
`backupable = false`; its action returns the stop marker exactly when the
branch-name check is not confirmed or the repository has unstaged changes;
and, being non-backupable, running it never records a checkpoint: the
scheduler leaves the checkpoint on disk unchanged whatever the outcome. -/
theorem checkRepositoryStatus_spec :
    checkRepositoryStatus.required = true ∧
    checkRepositoryStatus.backupable = false ∧
    (∀ branchNameConfirmed hasUnstagedChanges : Bool,
      checkRepositoryStatusAction branchNameConfirmed hasUnstagedChanges = .stop ↔
        (branchNameConfirmed = false ∨ hasUnstagedChanges = true)) ∧
    (∀ (σ : Type) (s : σ) (cp : Option σ) (b u : Bool),
      (run [⟨checkRepositoryStatus.backupable,
        fun st => (st, checkRepositoryStatusAction b u)⟩] s cp).checkpoint = cp) := by
  refine ⟨rfl, rfl, ?_, ?_⟩
  · intro b u
    cases b <;> cases u <;> simp [checkRepositoryStatusAction]
  · intro σ s cp b u
    cases b <;> cases u <;>
      simp [run_cons, run_nil, checkRepositoryStatusAction, checkRepositoryStatus]

/-- C6 witness: the flag values, the stop behaviour at an unconfirmed
branch check, and checkpoint preservation over `σ = Nat`, all read off
the theorem at concrete inputs. -/
theorem checkRepositoryStatus_spec_witness :
    checkRepositoryStatus.required = true ∧
    checkRepositoryStatus.backupable = false ∧
    (checkRepositoryStatusAction false false = .stop ↔
      (false = false ∨ false = true)) ∧
    (run [⟨checkRepositoryStatus.backupable,
      fun st => (st, checkRepositoryStatusAction true false)⟩] (7 : Nat)
        (some 3)).checkpoint = some 3 :=
  ⟨checkRepositoryStatus_spec.1, checkRepositoryStatus_spec.2.1,
    checkRepositoryStatus_spec.2.2.1 false false,
    checkRepositoryStatus_spec.2.2.2 Nat 7 (some 3) true false⟩

/-! ### Command options and backup data (types module, `constants.ts`, `helpers.ts`) -/

/-- The TS union `boolean | string`, used by the `prerelease`, `promote`
and `backport` options. -/
inductive BoolOrString where
  | bool (b : Bool)
  | str (s : String)
deriving Repr, DecidableEq

/-- `CommandOptions` from the types module, field for field. -/
structure CommandOptions where
  packageNames : List String
  prerelease : BoolOrString
  exclude : List String
  tag : String
  retry : Bool
  commitMessage : String
  excludeDeps : Bool
  skipRepoChecks : Bool
  dry : Bool
  listUnpublished : Bool
  promote : BoolOrString
  backport : BoolOrString
  grantAccess : Bool
deriving Repr, DecidableEq

/-- `BackupableOptions = Pick<CommandOptions, typeof BACKUPABLE_OPTIONS_FIELDS[number]>`
from the types module: exactly the five fields listed by
`BACKUPABLE_OPTIONS_FIELDS` in `constants.ts` - `packageNames`, `exclude`,
`prerelease`, `commitMessage` and `dry`. -/
structure BackupableOptions where
  packageNames : List String
  exclude : List String
  prerelease : BoolOrString
  commitMessage : String
  dry : Bool
deriving Repr, DecidableEq

/-- `BACKUP_EXPIRATION_TIME` from `constants.ts`: `30 * 60 * 1000` (30
minutes, in milliseconds). -/
def BACKUP_EXPIRATION_TIME : Nat := 30 * 60 * 1000

/-- `pickBackupableOptions` from `helpers.ts`:
`pick(options, BACKUPABLE_OPTIONS_FIELDS)`. -/
def pickBackupableOptions (options : CommandOptions) : BackupableOptions :=
  { packageNames := options.packageNames
    exclude := options.exclude
    prerelease := options.prerelease
    commitMessage := options.commitMessage
    dry := options.dry }

/-- `ReleaseType` enum from the types module. -/
inductive ReleaseType where
  | major
  | minor
  | patch
  | premajor
  | preminor
  | prepatch
  | prerelease
deriving Repr, DecidableEq

/-- `ChangelogChanges` is declared in the external `Changelogs` module,
which is not among the available sources; the embedded task code only
reads its `totalCount` field, so only that field is modelled. -/
structure ChangelogChanges where
  totalCount : Nat
deriving Repr, DecidableEq

/-- `GitLog` is declared in the external `Git` module, not among the
available sources; the embedded code only inspects the commit list's
length and a commit's `hash`, so a commit is modelled by its hash. -/
structure GitLog where
  hash : String
deriving Repr, DecidableEq

/-- `GitFileLog` from the external `Git` module, modelled by the
`relativePath` field the publish helpers read. -/
structure GitFileLog where
  relativePath : String
deriving Repr, DecidableEq

/-- The non-null payload of `PackageGitLogs` from the types module. -/
structure GitLogsData where
  commits : List GitLog
  files : List GitFileLog
deriving Repr, DecidableEq

/-- `PackageGitLogs = null | { commits, files }` from the types module. -/
abbrev PackageGitLogs : Type := Option GitLogsData

/-- `PackageState = PublishState & PromoteState` from the types module.
Every field is optional there (tasks fill them in cumulatively), hence
every field is an `Option` defaulting to `none`; TS `string | null` fields
become `Option (Option String)`. -/
structure PackageState where
  hasUnpublishedChanges : Option Bool := none
  isSelectedToPublish : Option Bool := none
  changelogChanges : Option ChangelogChanges := none
  integral : Option Bool := none
  logs : Option PackageGitLogs := none
  releaseType : Option ReleaseType := none
  releaseVersion : Option (Option String) := none
  published : Option Bool := none
  distTag : Option (Option String) := none
  versionToReplace : Option (Option String) := none
  canPromote : Option Bool := none
  isDegrading : Option Bool := none
  isSelectedToPromote : Option Bool := none
deriving Repr, DecidableEq

/-- `PublishBackupData` from the types module: the head fingerprint, the
backupable options, and the per-package state mapping (keyed by package
name). -/
structure PublishBackupData where
  head : String
  options : BackupableOptions
  state : List (String × PackageState)

/-- Modelled from the spec: `isUsable(checkpoint, currentOptions, currentHead)`
of the checkpoint store (part of the missing `TasksRunner`/backup module).
A checkpoint is usable iff it is not older than `BACKUP_EXPIRATION_TIME`
(age measured by file modification time `mtimeMs` against the current
clock `nowMs`), its recorded `options` equal - field for field - the
backupable projection of the current invocation's options, and its
recorded `head` equals the current workspace revision. -/
def isUsable (backup : PublishBackupData) (mtimeMs nowMs : Nat)
    (currentOptions : CommandOptions) (currentHead : String) : Bool :=
  decide (nowMs - mtimeMs ≤ BACKUP_EXPIRATION_TIME) &&
  decide (backup.options = pickBackupableOptions currentOptions) &&
  decide (backup.head = currentHead)

/-! ### Claim C3: checkpoint usability -/

/-- C3: `isUsable` returns true only if all three hold - the checkpoint is
not older than 30 minutes (`BACKUP_EXPIRATION_TIME = 30 * 60 * 1000`
milliseconds, measured from last write), its recorded options are
field-for-field equal to the backupable projection of the current options,
and its recorded head equals the current head; moreover a checkpoint older
than 30 minutes is unusable regardless of options and head. -/
theorem isUsable_spec :
    BACKUP_EXPIRATION_TIME = 30 * 60 * 1000 ∧
    (∀ backup mtimeMs nowMs currentOptions currentHead,
      isUsable backup mtimeMs nowMs currentOptions currentHead = true →
        nowMs - mtimeMs ≤ BACKUP_EXPIRATION_TIME ∧
        backup.options = pickBackupableOptions currentOptions ∧
        backup.head = currentHead) ∧
    (∀ backup mtimeMs nowMs currentOptions currentHead,
      BACKUP_EXPIRATION_TIME < nowMs - mtimeMs →
      isUsable backup mtimeMs nowMs currentOptions currentHead = false) := by
  refine ⟨rfl, ?_, ?_⟩
  · intro backup mtimeMs nowMs currentOptions currentHead hU
    simp only [isUsable, Bool.and_eq_true, decide_eq_true_eq] at hU
    exact ⟨hU.1.1, hU.1.2, hU.2⟩
  · intro backup mtimeMs nowMs currentOptions currentHead hage
    have hnot : ¬ (nowMs - mtimeMs ≤ BACKUP_EXPIRATION_TIME) := by omega
    simp [isUsable, hnot]

/-- Concrete options for the C3 witness. -/
def optionsC3 : CommandOptions :=
  { packageNames := ["expo-camera"], prerelease := .bool false, exclude := [],
    tag := "latest", retry := false, commitMessage := "Publish packages",
    excludeDeps := false, skipRepoChecks := false, dry := false,
    listUnpublished := false, promote := .bool false, backport := .bool false,
    grantAccess := false }

/-- Concrete backup for the C3 witness: written at the current head with
the projection of `optionsC3`. -/
def backupC3 : PublishBackupData :=
  { head := "headrev", options := pickBackupableOptions optionsC3, state := [] }

/-- C3 witness: a fresh checkpoint (age 0) with matching options and head
is usable, and the theorem recovers the three conditions from it; the same
checkpoint aged `BACKUP_EXPIRATION_TIME + 1` milliseconds is unusable even
though options and head still match. -/
theorem isUsable_spec_witness :
    (0 - 0 ≤ BACKUP_EXPIRATION_TIME ∧
      backupC3.options = pickBackupableOptions optionsC3 ∧
      backupC3.head = "headrev") ∧
    isUsable backupC3 0 (BACKUP_EXPIRATION_TIME + 1) optionsC3 "headrev" = false :=
  ⟨isUsable_spec.2.1 backupC3 0 0 optionsC3 "headrev" (by decide),
    isUsable_spec.2.2 backupC3 0 (BACKUP_EXPIRATION_TIME + 1) optionsC3 "headrev"
      (by decide)⟩

/-! ### Claim C4: the backupable projection of the options -/

/-- C4: `pickBackupableOptions o` is a record containing exactly the five
fields `packageNames`, `exclude`, `prerelease`, `commitMessage` and `dry`
(the `BackupableOptions` record has no other fields), each equal to the
corresponding field of `o`; and these fields are exactly what checkpoint
compatibility compares, so if two invocations differ in any one of the
five, a checkpoint recorded under the first invocation's options is
unusable under the second, whatever its age and head. -/
theorem pickBackupableOptions_spec :
    (∀ o : CommandOptions,
      (pickBackupableOptions o).packageNames = o.packageNames ∧
      (pickBackupableOptions o).exclude = o.exclude ∧
      (pickBackupableOptions o).prerelease = o.prerelease ∧
      (pickBackupableOptions o).commitMessage = o.commitMessage ∧
      (pickBackupableOptions o).dry = o.dry) ∧
    (∀ o o' : CommandOptions, ∀ backup : PublishBackupData,
      ∀ mtimeMs nowMs : Nat, ∀ head : String,
      backup.options = pickBackupableOptions o →
      (o.packageNames ≠ o'.packageNames ∨ o.exclude ≠ o'.exclude ∨
        o.prerelease ≠ o'.prerelease ∨ o.commitMessage ≠ o'.commitMessage ∨
        o.dry ≠ o'.dry) →
      isUsable backup mtimeMs nowMs o' head = false) := by
  refine ⟨fun o => ⟨rfl, rfl, rfl, rfl, rfl⟩, ?_⟩
  intro o o' backup mtimeMs nowMs head hopt hdiff
  have hne : ¬ (backup.options = pickBackupableOptions o') := by
    rw [hopt]
    intro he
    simp only [pickBackupableOptions, BackupableOptions.mk.injEq] at he
    rcases hdiff with h | h | h | h | h <;> exact h (by tauto)
  have hdec : decide (backup.options = pickBackupableOptions o') = false :=
    decide_eq_false hne
  simp [isUsable, hdec]

/-- Options for the C4 witness. -/
def optionsC4 : CommandOptions :=
  { packageNames := [], prerelease := .bool false, exclude := [],
    tag := "latest", retry := false, commitMessage := "Publish packages",
    excludeDeps := false, skipRepoChecks := false, dry := false,
    listUnpublished := false, promote := .bool false, backport := .bool false,
    grantAccess := false }

/-- The same options with only the `dry` flag changed. -/
def optionsC4dry : CommandOptions :=
  { optionsC4 with dry := true }

/-- C4 witness: the projection reproduces each of the five fields, and a
checkpoint recorded under `optionsC4` is unusable under `optionsC4dry`
(which differs only in the `dry` flag), even at age 0 with a matching
head. -/
theorem pickBackupableOptions_spec_witness :
    ((pickBackupableOptions optionsC4).packageNames = optionsC4.packageNames ∧
      (pickBackupableOptions optionsC4).exclude = optionsC4.exclude ∧
      (pickBackupableOptions optionsC4).prerelease = optionsC4.prerelease ∧
      (pickBackupableOptions optionsC4).commitMessage = optionsC4.commitMessage ∧
      (pickBackupableOptions optionsC4).dry = optionsC4.dry) ∧
    isUsable { head := "headrev", options := pickBackupableOptions optionsC4, state := [] }
      0 0 optionsC4dry "headrev" = false :=
  ⟨pickBackupableOptions_spec.1 optionsC4,
    pickBackupableOptions_spec.2 optionsC4 optionsC4dry
      { head := "headrev", options := pickBackupableOptions optionsC4, state := [] }
      0 0 "headrev" rfl
      (Or.inr (Or.inr (Or.inr (Or.inr (by decide)))))⟩

/-! ### The checkpoint store (claim C8)

The backup module (`save`/`load` over the checkpoint file at
`BACKUP_PATH`) is part of the missing runner sources; it is modelled from
the spec.  The checkpoint file is a structured JSON document with
top-level fields `head`, `options` and `state`; TS `undefined` fields are
omitted from the serialized object (as `JSON.stringify` does), while TS
`null` values serialize to JSON `null`. -/

/-- A JSON document. -/
inductive Json where
  | null
  | bool (b : Bool)
  | num (n : Int)
  | str (s : String)
  | arr (items : List Json)
  | obj (fields : List (String × Json))

/-- Look a key up in the field list of a JSON object (first match wins). -/
def jsonLookup : List (String × Json) → String → Option Json
  | [], _ => none
  | (k', j) :: fs, k => if k' = k then some j else jsonLookup fs k

/-- Serialize a list of optional fields, omitting the absent ones (the
way `JSON.stringify` omits `undefined` properties). -/
def encOptEntries : List (String × Option Json) → List (String × Json)
  | [] => []
  | (_, none) :: rest => encOptEntries rest
  | (k, some j) :: rest => (k, j) :: encOptEntries rest

/-- Read an optional field back: an absent key decodes to `none`, a
present key must decode. -/
def getOpt {α : Type} (fields : List (String × Json)) (k : String)
    (dec : Json → Option α) : Option (Option α) :=
  match jsonLookup fields k with
  | none => some none
  | some j => (dec j).map some

theorem encOptEntries_keys {entries : List (String × Option Json)} {k : String}
    (h : k ∉ entries.map Prod.fst) : jsonLookup (encOptEntries entries) k = none := by
  induction entries with
  | nil => rfl
  | cons e rest ih =>
    rcases e with ⟨k', v⟩
    simp only [List.map_cons, List.mem_cons] at h
    push_neg at h
    cases v with
    | none => exact ih h.2
    | some j =>
      rw [encOptEntries, jsonLookup, if_neg (Ne.symm h.1), ih h.2]

/-- The key lemma for reading one optional field out of a serialized
record: under distinct keys, looking up a field of the record returns
exactly what was written for it (`none` when it was omitted). -/
theorem jsonLookup_encOptEntries {entries : List (String × Option Json)} {k : String}
    {v : Option Json} (hnd : (entries.map Prod.fst).Nodup)
    (hmem : (k, v) ∈ entries) : jsonLookup (encOptEntries entries) k = v := by
  induction entries with
  | nil => cases hmem
  | cons e rest ih =>
    rcases e with ⟨k', v'⟩
    simp only [List.map_cons, List.nodup_cons] at hnd
    rcases List.mem_cons.mp hmem with heq | hmem'
    · injection heq with h1 h2
      subst h1
      subst h2
      cases v with
      | none =>
        show jsonLookup (encOptEntries rest) k = none
        exact encOptEntries_keys hnd.1
      | some j =>
        rw [encOptEntries, jsonLookup, if_pos rfl]
    · have hk : k ∈ rest.map Prod.fst := List.mem_map.mpr ⟨(k, v), hmem', rfl⟩
      have hne : k' ≠ k := fun he => hnd.1 (he ▸ hk)
      cases v' with
      | none => exact ih hnd.2 hmem'
      | some j =>
        rw [encOptEntries, jsonLookup, if_neg hne]
        exact ih hnd.2 hmem'

/-! #### Leaf codecs for the state fields -/

def asBool : Json → Option Bool
  | .bool b => some b
  | _ => none

theorem asBool_enc (b : Bool) : asBool (Json.bool b) = some b := rfl

def asString : Json → Option String
  | .str s => some s
  | _ => none

theorem asString_enc (s : String) : asString (Json.str s) = some s := rfl

def decodeListWith {α : Type} (dec : Json → Option α) : List Json → Option (List α)
  | [] => some []
  | j :: js =>
    match dec j, decodeListWith dec js with
    | some a, some rest => some (a :: rest)
    | _, _ => none

theorem decodeListWith_map {α : Type} (dec : Json → Option α) (enc : α → Json)
    (l : List α) (hdec : ∀ a, dec (enc a) = some a) :
    decodeListWith dec (l.map enc) = some l := by
  induction l with
  | nil => rfl
  | cons a as ih => simp [decodeListWith, hdec a, ih]

def encodeChangelogChanges (c : ChangelogChanges) : Json :=
  .obj [("totalCount", .num c.totalCount)]

def decodeChangelogChanges : Json → Option ChangelogChanges
  | .obj [("totalCount", .num n)] => some ⟨n.toNat⟩
  | _ => none

theorem decodeChangelogChanges_enc (c : ChangelogChanges) :
    decodeChangelogChanges (encodeChangelogChanges c) = some c := rfl

def encodeGitLog (g : GitLog) : Json := .str g.hash

def decodeGitLog : Json → Option GitLog
  | .str s => some ⟨s⟩
  | _ => none

def encodeGitFileLog (f : GitFileLog) : Json := .str f.relativePath

def decodeGitFileLog : Json → Option GitFileLog
  | .str s => some ⟨s⟩
  | _ => none

def encodeGitLogsData (d : GitLogsData) : Json :=
  .obj [("commits", .arr (d.commits.map encodeGitLog)),
        ("files", .arr (d.files.map encodeGitFileLog))]

def decodeGitLogsData : Json → Option GitLogsData
  | .obj [("commits", .arr cs), ("files", .arr fs)] =>
    match decodeListWith decodeGitLog cs, decodeListWith decodeGitFileLog fs with
    | some commits, some files => some ⟨commits, files⟩
    | _, _ => none
  | _ => none

theorem decodeGitLogsData_enc (d : GitLogsData) :
    decodeGitLogsData (encodeGitLogsData d) = some d := by
  rcases d with ⟨cs, fs⟩
  simp [encodeGitLogsData, decodeGitLogsData,
    decodeListWith_map decodeGitLog encodeGitLog cs (fun g => rfl),
    decodeListWith_map decodeGitFileLog encodeGitFileLog fs (fun f => rfl)]

def encodePackageGitLogs : PackageGitLogs → Json
  | none => .null
  | some d => encodeGitLogsData d

def decodePackageGitLogs : Json → Option PackageGitLogs
  | .null => some none
  | .obj fs => (decodeGitLogsData (.obj fs)).map some
  | _ => none

theorem decodePackageGitLogs_enc (l : PackageGitLogs) :
    decodePackageGitLogs (encodePackageGitLogs l) = some l := by
  cases l with
  | none => rfl
  | some d =>
    have h := decodeGitLogsData_enc d
    rw [encodeGitLogsData] at h
    show decodePackageGitLogs
      (Json.obj [("commits", Json.arr (d.commits.map encodeGitLog)),
        ("files", Json.arr (d.files.map encodeGitFileLog))]) = some (some d)
    rw [decodePackageGitLogs, h]
    rfl

def encodeReleaseType : ReleaseType → Json
  | .major => .str "major"
  | .minor => .str "minor"
  | .patch => .str "patch"
  | .premajor => .str "premajor"
  | .preminor => .str "preminor"
  | .prepatch => .str "prepatch"
  | .prerelease => .str "prerelease"

def decodeReleaseType : Json → Option ReleaseType
  | .str "major" => some .major
  | .str "minor" => some .minor
  | .str "patch" => some .patch
  | .str "premajor" => some .premajor
  | .str "preminor" => some .preminor
  | .str "prepatch" => some .prepatch
  | .str "prerelease" => some .prerelease
  | _ => none

theorem decodeReleaseType_enc (rt : ReleaseType) :
    decodeReleaseType (encodeReleaseType rt) = some rt := by
  cases rt <;> rfl

def encodeNullableString : Option String → Json
  | none => .null
  | some s => .str s

def decodeNullableString : Json → Option (Option String)
  | .null => some none
  | .str s => some (some s)
  | _ => none

theorem decodeNullableString_enc (v : Option String) :
    decodeNullableString (encodeNullableString v) = some v := by
  cases v <;> rfl

/-! #### The per-package state codec -/

/-- The serialized fields of a `PackageState` (absent = TS `undefined`). -/
def packageStateEntries (s : PackageState) : List (String × Option Json) :=
  [("hasUnpublishedChanges", s.hasUnpublishedChanges.map Json.bool),
   ("isSelectedToPublish", s.isSelectedToPublish.map Json.bool),
   ("changelogChanges", s.changelogChanges.map encodeChangelogChanges),
   ("integral", s.integral.map Json.bool),
   ("logs", s.logs.map encodePackageGitLogs),
   ("releaseType", s.releaseType.map encodeReleaseType),
   ("releaseVersion", s.releaseVersion.map encodeNullableString),
   ("published", s.published.map Json.bool),
   ("distTag", s.distTag.map encodeNullableString),
   ("versionToReplace", s.versionToReplace.map encodeNullableString),
   ("canPromote", s.canPromote.map Json.bool),
   ("isDegrading", s.isDegrading.map Json.bool),
   ("isSelectedToPromote", s.isSelectedToPromote.map Json.bool)]

def encodePackageState (s : PackageState) : Json :=
  .obj (encOptEntries (packageStateEntries s))

def decodePackageState : Json → Option PackageState
  | .obj fields =>
    match getOpt fields "hasUnpublishedChanges" asBool,
        getOpt fields "isSelectedToPublish" asBool,
        getOpt fields "changelogChanges" decodeChangelogChanges,
        getOpt fields "integral" asBool,
        getOpt fields "logs" decodePackageGitLogs,
        getOpt fields "releaseType" decodeReleaseType,
        getOpt fields "releaseVersion" decodeNullableString,
        getOpt fields "published" asBool,
        getOpt fields "distTag" decodeNullableString,
        getOpt fields "versionToReplace" decodeNullableString,
        getOpt fields "canPromote" asBool,
        getOpt fields "isDegrading" asBool,
        getOpt fields "isSelectedToPromote" asBool with
    | some f1, some f2, some f3, some f4, some f5, some f6, some f7, some f8,
      some f9, some f10, some f11, some f12, some f13 =>
      some ⟨f1, f2, f3, f4, f5, f6, f7, f8, f9, f10, f11, f12, f13⟩
    | _, _, _, _, _, _, _, _, _, _, _, _, _ => none
  | _ => none

/-- Reading one optional field out of a serialized record returns what
was written for it. -/
theorem getOpt_entries {α : Type} (entries : List (String × Option Json)) (k : String)
    (enc : α → Json) (dec : Json → Option α) (v : Option α)
    (hnd : (entries.map Prod.fst).Nodup)
    (hmem : (k, v.map enc) ∈ entries)
    (hdec : ∀ a, dec (enc a) = some a) :
    getOpt (encOptEntries entries) k dec = some v := by
  rw [getOpt, jsonLookup_encOptEntries hnd hmem]
  cases v with
  | none => rfl
  | some a => simp [hdec a]

theorem decodePackageState_enc (s : PackageState) :
    decodePackageState (encodePackageState s) = some s := by
  have hnd : ((packageStateEntries s).map Prod.fst).Nodup := by
    simp only [packageStateEntries, List.map_cons, List.map_nil]
    decide
  have h1 := getOpt_entries (packageStateEntries s) "hasUnpublishedChanges" Json.bool
    asBool s.hasUnpublishedChanges hnd (by simp [packageStateEntries]) asBool_enc
  have h2 := getOpt_entries (packageStateEntries s) "isSelectedToPublish" Json.bool
    asBool s.isSelectedToPublish hnd (by simp [packageStateEntries]) asBool_enc
  have h3 := getOpt_entries (packageStateEntries s) "changelogChanges" encodeChangelogChanges
    decodeChangelogChanges s.changelogChanges hnd (by simp [packageStateEntries])
    decodeChangelogChanges_enc
  have h4 := getOpt_entries (packageStateEntries s) "integral" Json.bool
    asBool s.integral hnd (by simp [packageStateEntries]) asBool_enc
  have h5 := getOpt_entries (packageStateEntries s) "logs" encodePackageGitLogs
    decodePackageGitLogs s.logs hnd (by simp [packageStateEntries])
    decodePackageGitLogs_enc
  have h6 := getOpt_entries (packageStateEntries s) "releaseType" encodeReleaseType
    decodeReleaseType s.releaseType hnd (by simp [packageStateEntries])
    decodeReleaseType_enc
  have h7 := getOpt_entries (packageStateEntries s) "releaseVersion" encodeNullableString
    decodeNullableString s.releaseVersion hnd (by simp [packageStateEntries])
    decodeNullableString_enc
  have h8 := getOpt_entries (packageStateEntries s) "published" Json.bool
    asBool s.published hnd (by simp [packageStateEntries]) asBool_enc
  have h9 := getOpt_entries (packageStateEntries s) "distTag" encodeNullableString
    decodeNullableString s.distTag hnd (by simp [packageStateEntries])
    decodeNullableString_enc
  have h10 := getOpt_entries (packageStateEntries s) "versionToReplace" encodeNullableString
    decodeNullableString s.versionToReplace hnd (by simp [packageStateEntries])
    decodeNullableString_enc
  have h11 := getOpt_entries (packageStateEntries s) "canPromote" Json.bool
    asBool s.canPromote hnd (by simp [packageStateEntries]) asBool_enc
  have h12 := getOpt_entries (packageStateEntries s) "isDegrading" Json.bool
    asBool s.isDegrading hnd (by simp [packageStateEntries]) asBool_enc
  have h13 := getOpt_entries (packageStateEntries s) "isSelectedToPromote" Json.bool
    asBool s.isSelectedToPromote hnd (by simp [packageStateEntries]) asBool_enc
  rw [encodePackageState, decodePackageState, h1, h2, h3, h4, h5, h6, h7, h8, h9,
    h10, h11, h12, h13]

/-! #### Options, state-mapping and top-level backup codecs -/

def encodeBoolOrString : BoolOrString → Json
  | .bool b => .bool b
  | .str s => .str s

def decodeBoolOrString : Json → Option BoolOrString
  | .bool b => some (.bool b)
  | .str s => some (.str s)
  | _ => none

theorem decodeBoolOrString_enc (v : BoolOrString) :
    decodeBoolOrString (encodeBoolOrString v) = some v := by
  cases v <;> rfl

def decodeStringList : Json → Option (List String)
  | .arr items => decodeListWith asString items
  | _ => none

def encodeBackupableOptions (o : BackupableOptions) : Json :=
  .obj [("packageNames", .arr (o.packageNames.map Json.str)),
        ("exclude", .arr (o.exclude.map Json.str)),
        ("prerelease", encodeBoolOrString o.prerelease),
        ("commitMessage", .str o.commitMessage),
        ("dry", .bool o.dry)]

def decodeBackupableOptions : Json → Option BackupableOptions
  | .obj [("packageNames", pj), ("exclude", ej), ("prerelease", prj),
      ("commitMessage", .str cm), ("dry", .bool d)] =>
    match decodeStringList pj, decodeStringList ej, decodeBoolOrString prj with
    | some pns, some exs, some pr => some ⟨pns, exs, pr, cm, d⟩
    | _, _, _ => none
  | _ => none

theorem decodeBackupableOptions_enc (o : BackupableOptions) :
    decodeBackupableOptions (encodeBackupableOptions o) = some o := by
  rcases o with ⟨pns, exs, pr, cm, d⟩
  simp [encodeBackupableOptions, decodeBackupableOptions, decodeStringList,
    decodeListWith_map asString Json.str pns (fun s => rfl),
    decodeListWith_map asString Json.str exs (fun s => rfl),
    decodeBoolOrString_enc pr]

def encodeStateEntries : List (String × PackageState) → List (String × Json)
  | [] => []
  | (k, st) :: rest => (k, encodePackageState st) :: encodeStateEntries rest

def decodeStateEntries : List (String × Json) → Option (List (String × PackageState))
  | [] => some []
  | (k, j) :: rest =>
    match decodePackageState j, decodeStateEntries rest with
    | some st, some sts => some ((k, st) :: sts)
    | _, _ => none

theorem decodeStateEntries_enc (l : List (String × PackageState)) :
    decodeStateEntries (encodeStateEntries l) = some l := by
  induction l with
  | nil => rfl
  | cons e rest ih =>
    rcases e with ⟨k, st⟩
    simp [encodeStateEntries, decodeStateEntries, decodePackageState_enc st, ih]

def encodeBackup (b : PublishBackupData) : Json :=
  .obj [("head", .str b.head),
        ("options", encodeBackupableOptions b.options),
        ("state", .obj (encodeStateEntries b.state))]

def decodeBackup : Json → Option PublishBackupData
  | .obj [("head", .str h), ("options", oj), ("state", .obj sts)] =>
    match decodeBackupableOptions oj, decodeStateEntries sts with
    | some o, some st => some ⟨h, o, st⟩
    | _, _ => none
  | _ => none

/-- Modelled from the spec: `save(headFingerprint, backupableOptions,
stateByPackage)` of the checkpoint store serializes the backup document
and overwrites the checkpoint file (atomically, write-then-rename; the
model keeps the resulting file contents, the previous contents being
wholly replaced). -/
def save (headFingerprint : String) (backupableOptions : BackupableOptions)
    (stateByPackage : List (String × PackageState)) : Option Json :=
  some (encodeBackup
    { head := headFingerprint, options := backupableOptions, state := stateByPackage })

/-- Modelled from the spec: `load()` of the checkpoint store reads and
parses the checkpoint file if present; a missing file or any parse
failure is treated as absent. -/
def load (disk : Option Json) : Option PublishBackupData :=
  match disk with
  | none => none
  | some j => decodeBackup j

/-! ### Claim C8: checkpoint round-trip -/

/-- C8: for every head fingerprint, backupable options and per-package
state mapping, saving a checkpoint and then loading it returns a
checkpoint equal to what was saved - in particular its per-package
`state` mapping is exactly the mapping that was saved: the state
round-trips through serialization unchanged. -/
theorem save_load_roundtrip (headFingerprint : String)
    (backupableOptions : BackupableOptions)
    (stateByPackage : List (String × PackageState)) :
    load (save headFingerprint backupableOptions stateByPackage) =
      some { head := headFingerprint, options := backupableOptions,
             state := stateByPackage } ∧
    (load (save headFingerprint backupableOptions stateByPackage)).map
      PublishBackupData.state = some stateByPackage := by
  have h : load (save headFingerprint backupableOptions stateByPackage) =
      some { head := headFingerprint, options := backupableOptions,
             state := stateByPackage } := by
    simp [save, load, encodeBackup, decodeBackup,
      decodeBackupableOptions_enc backupableOptions,
      decodeStateEntries_enc stateByPackage]
  exact ⟨h, by rw [h]; rfl⟩

/-! ### Package fabrics and the publish tasks (`tasks.ts`, claims C5, C9, C10) -/

/-- `Package` from the external `Packages` module: the fields the embedded
tasks read - name, version, filesystem path, and the `gitHead` recorded in
its `package.json`. -/
structure Package where
  packageName : String
  packageVersion : String
  path : String
  gitHead : Option String := none
deriving Repr, DecidableEq

/-- `PackageViewType` from the external `Npm` module (the parsed result of
`npm view`): the fields the embedded tasks and helpers read. -/
structure PackageViewType where
  maintainers : List String
  versions : List String := []
  gitHead : Option String := none
deriving Repr, DecidableEq

/-- `PackageFabric` from the types module.  The `changelog` and `gitDir`
handle objects are replaced by the values the tasks obtain from them:
`changelog.getChangesAsync()` and `getPackageGitLogsAsync(gitDir, gitHead)`
are external asynchronous collaborators, so their per-package results
(`changelogChanges`, `gitLogs`) are oracle inputs of the model.  The
recursive `dependents` back-reference list is modelled by package name to
keep the type non-recursive; none of the tasks embedded here read it. -/
structure PackageFabric where
  pkg : Package
  pkgView : Option PackageViewType
  changelogChanges : ChangelogChanges
  gitLogs : PackageGitLogs
  dependents : Option (List String) := none
  state : PackageState := {}
deriving Repr, DecidableEq

/-- From `findUnpublishedPackages` in `tasks.ts`:
`options.prerelease === true ? 'rc' : options.prerelease || undefined`
(JS `||` treats `false` and the empty string as falsy). -/
def prereleaseFromOptions (options : CommandOptions) : Option String :=
  match options.prerelease with
  | .bool true => some "rc"
  | .bool false => none
  | .str s => if s = "" then none else some s

/-- The body of the `findUnpublishedPackages` loop in `tasks.ts`, for one
fabric.  It records the git logs and changelog changes into the state,
computes `hasUnpublishedChanges` as
`!logs || logs.commits.length > 0 || changelogChanges.totalCount > 0`,
and records the suggested release type and version.  The helpers
`getSuggestedReleaseType` and `resolveSuggestedVersion` rest on the
external `semver` library's version arithmetic, so they enter the model
as oracle functions `suggestType` and `suggestVersion` (applied, as in
the source, to the fabric with its state already updated, and to
`pkg.packageVersion`, `pkgView?.versions ?? []`, the just-computed release
type and the prerelease identifier).  The source's trailing
`if (!state.releaseType || !state.releaseVersion) continue;` is a no-op
at the end of the loop body and has no counterpart here. -/
def findUnpublishedProcessFabric
    (suggestType : PackageFabric → Option String → ReleaseType)
    (suggestVersion : String → List String → ReleaseType → Option String → String)
    (prerelease : Option String) (fabric : PackageFabric) : PackageFabric :=
  let changelogChanges := fabric.changelogChanges
  let logs := fabric.gitLogs
  let state1 := { fabric.state with
                  logs := some logs,
                  changelogChanges := some changelogChanges,
                  hasUnpublishedChanges := some (match logs with
                    | none => true
                    | some l =>
                      decide (0 < l.commits.length) ||
                      decide (0 < changelogChanges.totalCount)) }
  let fabric1 := { fabric with state := state1 }
  let releaseType := suggestType fabric1 prerelease
  let releaseVersion := suggestVersion fabric.pkg.packageVersion
    ((fabric.pkgView.map PackageViewType.versions).getD []) releaseType prerelease
  { fabric1 with state := { state1 with
                            releaseType := some releaseType,
                            releaseVersion := some (some releaseVersion) } }

/-- The action of the `findUnpublishedPackages` task in `tasks.ts`: it
processes every fabric in order, then returns the stop marker
(`Task.STOP`) when `fabrics.filter(({ state }) => state.hasUnpublishedChanges)`
is empty, i.e. when no package has unpublished changes. -/
def findUnpublishedPackagesAction
    (suggestType : PackageFabric → Option String → ReleaseType)
    (suggestVersion : String → List String → ReleaseType → Option String → String)
    (fabrics : List PackageFabric) (options : CommandOptions) :
    List PackageFabric × TaskResult :=
  let prerelease := prereleaseFromOptions options
  let fabrics1 :=
    fabrics.map (findUnpublishedProcessFabric suggestType suggestVersion prerelease)
  if (fabrics1.filter
      (fun f => decide (f.state.hasUnpublishedChanges = some true))).length = 0 then
    (fabrics1, .stop)
  else
    (fabrics1, .cont)

/-! ### Claim C5: `findUnpublishedPackages` -/

/-- C5: after the `findUnpublishedPackages` action processes the fabrics,
each fabric's `state.hasUnpublishedChanges` is `true` exactly when its git
logs could not be resolved (`logs` is null), or the logs contain at least
one commit, or its changelog changes have `totalCount > 0`; and the action
returns the stop marker if and only if no processed fabric has
`hasUnpublishedChanges` true. -/
theorem findUnpublishedPackages_spec
    (suggestType : PackageFabric → Option String → ReleaseType)
    (suggestVersion : String → List String → ReleaseType → Option String → String)
    (fabrics : List PackageFabric) (options : CommandOptions) :
    (∀ f ∈ fabrics,
      (findUnpublishedProcessFabric suggestType suggestVersion
          (prereleaseFromOptions options) f).state.hasUnpublishedChanges = some true ↔
        (f.gitLogs = none ∨ (∃ l, f.gitLogs = some l ∧ 0 < l.commits.length) ∨
          0 < f.changelogChanges.totalCount)) ∧
    ((findUnpublishedPackagesAction suggestType suggestVersion fabrics options).2 =
        TaskResult.stop ↔
      ∀ f ∈ (findUnpublishedPackagesAction suggestType suggestVersion fabrics options).1,
        f.state.hasUnpublishedChanges ≠ some true) := by
  constructor
  · intro f _
    cases hl : f.gitLogs with
    | none =>
      simp [findUnpublishedProcessFabric, hl]
    | some l =>
      simp [findUnpublishedProcessFabric, hl]
  · by_cases hc : ((fabrics.map (findUnpublishedProcessFabric suggestType suggestVersion
        (prereleaseFromOptions options))).filter
        (fun f => decide (f.state.hasUnpublishedChanges = some true))).length = 0
    · have hnil := List.length_eq_zero.mp hc
      have hall := List.filter_eq_nil_iff.mp hnil
      have heq : findUnpublishedPackagesAction suggestType suggestVersion fabrics options =
          (fabrics.map (findUnpublishedProcessFabric suggestType suggestVersion
            (prereleaseFromOptions options)), TaskResult.stop) := by
        simp only [findUnpublishedPackagesAction]
        rw [if_pos hc]
      rw [heq]
      constructor
      · intro _ f hf
        simpa using hall f hf
      · intro _
        rfl
    · have hne : (fabrics.map (findUnpublishedProcessFabric suggestType suggestVersion
          (prereleaseFromOptions options))).filter
          (fun f => decide (f.state.hasUnpublishedChanges = some true)) ≠ [] :=
        fun h0 => hc (by rw [h0]; rfl)
      obtain ⟨x, hx⟩ := List.exists_mem_of_ne_nil _ hne
      have hf0 := List.mem_of_mem_filter hx
      have hp0 := List.of_mem_filter hx
      have heq : findUnpublishedPackagesAction suggestType suggestVersion fabrics options =
          (fabrics.map (findUnpublishedProcessFabric suggestType suggestVersion
            (prereleaseFromOptions options)), TaskResult.cont) := by
        simp only [findUnpublishedPackagesAction]
        rw [if_neg hc]
      rw [heq]
      constructor
      · intro h
        exact absurd h (by simp)
      · intro hall2
        exfalso
        exact hall2 x hf0 (of_decide_eq_true hp0)

/-- Options for the C5 witness (no prerelease). -/
def optionsC5 : CommandOptions :=
  { packageNames := [], prerelease := .bool false, exclude := [],
    tag := "latest", retry := false, commitMessage := "Publish packages",
    excludeDeps := false, skipRepoChecks := false, dry := false,
    listUnpublished := false, promote := .bool false, backport := .bool false,
    grantAccess := false }

/-- A fabric whose git logs could not be resolved (`logs` null). -/
def fabricC5 : PackageFabric :=
  { pkg := { packageName := "expo-camera", packageVersion := "1.0.0",
             path := "packages/expo-camera" },
    pkgView := none,
    changelogChanges := { totalCount := 0 },
    gitLogs := none }

/-- C5 witness: the theorem instantiated on a one-fabric array whose logs
are unresolved; its `hasUnpublishedChanges` comes out true, and the
action's stop decision agrees with the absence of unpublished changes. -/
theorem findUnpublishedPackages_spec_witness :
    ((findUnpublishedProcessFabric (fun _ _ => ReleaseType.patch) (fun v _ _ _ => v)
        (prereleaseFromOptions optionsC5) fabricC5).state.hasUnpublishedChanges = some true ↔
      (fabricC5.gitLogs = none ∨
        (∃ l, fabricC5.gitLogs = some l ∧ 0 < l.commits.length) ∨
        0 < fabricC5.changelogChanges.totalCount)) ∧
    ((findUnpublishedPackagesAction (fun _ _ => ReleaseType.patch) (fun v _ _ _ => v)
        [fabricC5] optionsC5).2 = TaskResult.stop ↔
      ∀ f ∈ (findUnpublishedPackagesAction (fun _ _ => ReleaseType.patch) (fun v _ _ _ => v)
        [fabricC5] optionsC5).1, f.state.hasUnpublishedChanges ≠ some true) :=
  ⟨(findUnpublishedPackages_spec (fun _ _ => ReleaseType.patch) (fun v _ _ _ => v)
      [fabricC5] optionsC5).1 fabricC5 (by simp),
    (findUnpublishedPackages_spec (fun _ _ => ReleaseType.patch) (fun v _ _ _ => v)
      [fabricC5] optionsC5).2⟩

/-! ### Claim C9: `publishPackages` -/

/-- The action of the `publishPackages` task in `tasks.ts`.  It filters
the fabrics selected to publish; if none is selected it returns without
publishing anything.  Otherwise it iterates over `fabrics` - the whole
array, not the filtered `toPublish` - calling
`Npm.publishPackageAsync(pkg.path, options.tag, options.dry)` for each
fabric and setting `state.published = true` on each.  The external
registry calls are modelled by returning the list of `(path, tag, dry)`
triples in call order. -/
def publishPackagesAction (fabrics : List PackageFabric) (options : CommandOptions) :
    List PackageFabric × List (String × String × Bool) :=
  let toPublish := fabrics.filter (fun f => decide (f.state.isSelectedToPublish = some true))
  if toPublish.length = 0 then
    (fabrics, [])
  else
    (fabrics.map (fun f => { f with state := { f.state with published := some true } }),
     fabrics.map (fun f => (f.pkg.path, options.tag, options.dry)))

/-- C9: whenever at least one fabric is selected to publish, the
`publishPackages` action performs one registry publish call per fabric of
the whole array - including fabrics not selected to publish - and sets
`state.published = true` on every fabric; it publishes nothing only when
no fabric is selected. -/
theorem publishPackages_spec (fabrics : List PackageFabric) (options : CommandOptions) :
    ((∃ f ∈ fabrics, f.state.isSelectedToPublish = some true) →
      (publishPackagesAction fabrics options).2 =
        fabrics.map (fun f => (f.pkg.path, options.tag, options.dry)) ∧
      ∀ f ∈ (publishPackagesAction fabrics options).1, f.state.published = some true) ∧
    ((∀ f ∈ fabrics, f.state.isSelectedToPublish ≠ some true) →
      publishPackagesAction fabrics options = (fabrics, [])) := by
  constructor
  · rintro ⟨f0, hf0, hsel⟩
    have hc : ¬ ((fabrics.filter
        (fun f => decide (f.state.isSelectedToPublish = some true))).length = 0) := by
      intro h0
      have hall := List.filter_eq_nil_iff.mp (List.length_eq_zero.mp h0)
      exact hall f0 hf0 (by simpa using hsel)
    have heq : publishPackagesAction fabrics options =
        (fabrics.map (fun f => { f with state := { f.state with published := some true } }),
         fabrics.map (fun f => (f.pkg.path, options.tag, options.dry))) := by
      simp only [publishPackagesAction]
      rw [if_neg hc]
    rw [heq]
    refine ⟨rfl, ?_⟩
    intro f hf
    obtain ⟨g, _, rfl⟩ := List.mem_map.mp hf
    rfl
  · intro hall
    have hc : (fabrics.filter
        (fun f => decide (f.state.isSelectedToPublish = some true))).length = 0 := by
      rw [List.length_eq_zero, List.filter_eq_nil_iff]
      intro f hf
      simpa using hall f hf
    simp only [publishPackagesAction]
    rw [if_pos hc]

/-- Options for the C9 witness. -/
def optionsC9 : CommandOptions :=
  { packageNames := [], prerelease := .bool false, exclude := [],
    tag := "latest", retry := false, commitMessage := "Publish packages",
    excludeDeps := false, skipRepoChecks := false, dry := false,
    listUnpublished := false, promote := .bool false, backport := .bool false,
    grantAccess := false }

/-- Fabrics for the C9 witness: one selected to publish, one not. -/
def fabricC9a : PackageFabric :=
  { pkg := { packageName := "expo-camera", packageVersion := "1.0.0",
             path := "packages/expo-camera" },
    pkgView := none,
    changelogChanges := { totalCount := 1 },
    gitLogs := none,
    state := { isSelectedToPublish := some true } }

/-- A fabric not selected to publish. -/
def fabricC9b : PackageFabric :=
  { pkg := { packageName := "expo-gl", packageVersion := "2.0.0",
             path := "packages/expo-gl" },
    pkgView := none,
    changelogChanges := { totalCount := 0 },
    gitLogs := none }

/-- C9 witness: with `fabricC9a` selected and `fabricC9b` not, the action
still publishes both packages (two registry calls, in array order) and
marks both as published. -/
theorem publishPackages_spec_witness :
    (publishPackagesAction [fabricC9a, fabricC9b] optionsC9).2 =
      [fabricC9a, fabricC9b].map (fun f => (f.pkg.path, optionsC9.tag, optionsC9.dry)) ∧
    ∀ f ∈ (publishPackagesAction [fabricC9a, fabricC9b] optionsC9).1,
      f.state.published = some true :=
  (publishPackages_spec [fabricC9a, fabricC9b] optionsC9).1
    ⟨fabricC9a, by simp, rfl⟩

/-! ### Claim C10: `doesSomeoneHaveNoAccessToPackage` (`helpers.ts`) -/

/-- A character of the JS regex class `\s` (the ASCII part; maintainer
strings are ASCII `"username <email>"`). -/
def jsWhitespaceChar (c : Char) : Bool :=
  c == ' ' || c == '\t' || c == '\n' || c == '\r' || c == '\x0B' || c == '\x0C'

/-- A character the JS regex `.` matches (anything but a line
terminator). -/
def jsDotChar (c : Char) : Bool :=
  !(c == '\n' || c == '\r' || c == '\u2028' || c == '\u2029')

/-- The maintainer-stripping step of `doesSomeoneHaveNoAccessToPackage` in
`helpers.ts`: `maintainer.replace(/^(.+)\s.*$/, '$1')`.  The regex matches
when the string splits as a non-empty `.`-run, one whitespace character,
and a `.`-run; the greedy `(.+)` makes the split happen at the last
eligible whitespace character, and the replacement keeps the part before
it.  A string with no such split (e.g. no whitespace) is returned
unchanged. -/
def stripMaintainer (s : String) : String :=
  let cs := s.toList
  let eligible := (List.range cs.length).filter (fun i =>
    decide (1 ≤ i) &&
    (match cs.get? i with
     | some c => jsWhitespaceChar c
     | none => false) &&
    (cs.take i).all jsDotChar &&
    (cs.drop (i + 1)).all jsDotChar)
  match eligible.getLast? with
  | some i => String.mk (cs.take i)
  | none => s

/-- `doesSomeoneHaveNoAccessToPackage(users, pkgView)` from `helpers.ts`:
`!pkgView` returns true; otherwise the maintainers are stripped to
usernames and the result is `users.every(user => maintainers.includes(user))`. -/
def doesSomeoneHaveNoAccessToPackage (users : List String)
    (pkgView : Option PackageViewType) : Bool :=
  match pkgView with
  | none => true
  | some v =>
    let maintainers := v.maintainers.map stripMaintainer
    users.all (fun user => maintainers.contains user)

/-- C10: `doesSomeoneHaveNoAccessToPackage` returns true whenever
`pkgView` is null/undefined; for a non-null view it returns true exactly
when every name in `users` occurs among the stripped maintainer
usernames - and hence returns false whenever some user is missing from
the maintainers list. -/
theorem doesSomeoneHaveNoAccessToPackage_spec (users : List String) :
    doesSomeoneHaveNoAccessToPackage users none = true ∧
    (∀ v, doesSomeoneHaveNoAccessToPackage users (some v) = true ↔
      ∀ u ∈ users, u ∈ v.maintainers.map stripMaintainer) ∧
    (∀ v u, u ∈ users → u ∉ v.maintainers.map stripMaintainer →
      doesSomeoneHaveNoAccessToPackage users (some v) = false) := by
  have hmain : ∀ v, doesSomeoneHaveNoAccessToPackage users (some v) = true ↔
      ∀ u ∈ users, u ∈ v.maintainers.map stripMaintainer := by
    intro v
    simp [doesSomeoneHaveNoAccessToPackage, List.all_eq_true]
  refine ⟨rfl, hmain, ?_⟩
  intro v u hu hnm
  cases hb : doesSomeoneHaveNoAccessToPackage users (some v) with
  | false => rfl
  | true => exact absurd ((hmain v).mp hb u hu) hnm

/-- C10 witness: with no package view the function returns true; with a
view maintained only by `alice` (stripped from `"alice <alice@expo.dev>"`),
the user list `["alice", "bob"]` contains a user missing from the
maintainers, so the function returns false. -/
theorem doesSomeoneHaveNoAccessToPackage_spec_witness :
    doesSomeoneHaveNoAccessToPackage ["alice", "bob"] none = true ∧
    doesSomeoneHaveNoAccessToPackage ["alice", "bob"]
      (some { maintainers := ["alice <alice@expo.dev>"] }) = false :=
  ⟨(doesSomeoneHaveNoAccessToPackage_spec ["alice", "bob"]).1,
    (doesSomeoneHaveNoAccessToPackage_spec ["alice", "bob"]).2.2
      { maintainers := ["alice <alice@expo.dev>"] } "bob" (by simp) (by decide)⟩

end Expotools
